import Mathlib

/-!
Verification development for the TradingCardScanner hybrid card-matching store.

The definitions below are a shallow embedding of the Python sources:
  src/backend/services/card_database.py  (CardEntry, CardDatabase)
  src/backend/app.py                     (recognize_card merge logic)

Modelling conventions:
  * float32 arithmetic is idealised as exact rational arithmetic (ℚ);
  * `faiss.normalize_L2` divides by the L2 norm; the square root is modelled
    by `ratSqrt`, which is exact exactly when numerator and denominator of the
    squared norm are perfect squares.  All concrete inputs used in theorems
    are chosen inside that exact fragment, and universal theorems that touch
    normalisation carry an explicit exactness hypothesis;
  * the SQLite table `cards` is modelled as a list of rows in rowid order
    (INSERT OR REPLACE deletes the conflicting row and appends a fresh one);
  * Python dicts (`_id_to_idx`, `_idx_to_id`) are association lists with
    insertion order and overwrite-in-place semantics;
  * perceptual hashes are modelled as the bit fingerprints that
    `imagehash.hex_to_hash` produces (lists of Booleans), and the imagehash /
    FAISS optional dependencies are assumed available;
  * exceptions raised and caught inside `add_card` are modelled by an explicit
    fault parameter (`Fault`) for the SQLite write, plus the deterministic
    dimensionality check that makes `faiss.Index.add` raise.
-/

namespace TradingCardScanner

/-! ## Generic list machinery -/

/-- Stable insertion: place `x` before the first element `y` with `le x y`.
Used to model Python's stable `list.sort`. -/
def insertLe (le : α → α → Bool) (x : α) : List α → List α
  | [] => [x]
  | y :: ys => if le x y then x :: y :: ys else y :: insertLe le x ys

/-- Stable insertion sort with respect to the Boolean comparison `le`. -/
def sortLe (le : α → α → Bool) : List α → List α
  | [] => []
  | x :: xs => insertLe le x (sortLe le xs)

/-- Lookup in an association list, mirroring Python `dict.get`. -/
def assocGet [BEq κ] (l : List (κ × β)) (k : κ) : Option β :=
  (l.find? (fun p => p.1 == k)).map (fun p => p.2)

/-- Update of an association list, mirroring Python `dict.__setitem__`:
overwrite in place when the key is present, append otherwise. -/
def assocUpd [BEq κ] (l : List (κ × β)) (k : κ) (v : β) : List (κ × β) :=
  if l.any (fun p => p.1 == k) then
    l.map (fun p => if p.1 == k then (k, v) else p)
  else
    l ++ [(k, v)]

/-! ## Vectors and hashes -/

/-- Inner product of two rational vectors (`faiss.IndexFlatIP` score). -/
def dot : List ℚ → List ℚ → ℚ
  | a :: as', b :: bs' => a * b + dot as' bs'
  | _, _ => 0

/-- Squared L2 norm of a vector. -/
def normSq (v : List ℚ) : ℚ := dot v v

/-- Rational square root, exact when numerator and denominator are perfect
squares (the only fragment in which this model of `sqrt` is used). -/
def ratSqrt (q : ℚ) : ℚ := (Nat.sqrt q.num.toNat : ℚ) / (Nat.sqrt q.den : ℚ)

/-- Model of `faiss.normalize_L2`: divide every component by the L2 norm. -/
def normalizeL2 (v : List ℚ) : List ℚ := v.map (fun x => x / ratSqrt (normSq v))

/-- Hamming distance between two equal-length bit fingerprints
(`imagehash.ImageHash.__sub__` counts differing bits). -/
def hamming (a b : List Bool) : ℕ := ((a.zip b).filter (fun p => p.1 != p.2)).length

/-! ## Data model (card_database.py) -/

/-- Model of the `CardEntry` dataclass (card_database.py lines 30-43). -/
structure CardEntry where
  card_id : String
  name : String
  set_name : String
  category : String
  tcgplayer_product_id : Option String
  image_path : Option String
  image_url : Option String
  feature_vector : Option (List ℚ)
  perceptual_hash : Option (List Bool)
  created_at : String
  updated_at : String
deriving DecidableEq

/-- Row of the SQLite `cards` table (card_database.py lines 93-106): every
`CardEntry` field except `feature_vector`, which is not stored in SQLite. -/
structure StoredRow where
  card_id : String
  name : String
  set_name : String
  category : String
  tcgplayer_product_id : Option String
  image_path : Option String
  image_url : Option String
  perceptual_hash : Option (List Bool)
  created_at : String
  updated_at : String
deriving DecidableEq

/-- Columns written by the INSERT OR REPLACE in `add_card`
(card_database.py lines 180-196). -/
def rowOfEntry (e : CardEntry) : StoredRow :=
  { card_id := e.card_id, name := e.name, set_name := e.set_name,
    category := e.category, tcgplayer_product_id := e.tcgplayer_product_id,
    image_path := e.image_path, image_url := e.image_url,
    perceptual_hash := e.perceptual_hash,
    created_at := e.created_at, updated_at := e.updated_at }

/-- Reconstruction of a `CardEntry` from a row, as done by `get_card`,
`find_by_hash` and `get_cards_by_category`: `feature_vector` is always `None`
(card_database.py lines 236-248). -/
def entryOfRow (r : StoredRow) : CardEntry :=
  { card_id := r.card_id, name := r.name, set_name := r.set_name,
    category := r.category, tcgplayer_product_id := r.tcgplayer_product_id,
    image_path := r.image_path, image_url := r.image_url,
    feature_vector := none,
    perceptual_hash := r.perceptual_hash,
    created_at := r.created_at, updated_at := r.updated_at }

/-- A `CardEntry` with its feature vector erased. -/
def stripVec (e : CardEntry) : CardEntry := { e with feature_vector := none }

/-- In-memory state of a `CardDatabase` instance: the SQLite rows in rowid
order, the FAISS index contents in slot order, and the two mapping dicts
(card_database.py lines 79-86). -/
structure DBState where
  store : List StoredRow
  vecs : List (List ℚ)
  id_to_idx : List (String × ℕ)
  idx_to_id : List (ℕ × String)
deriving DecidableEq

/-- State of a freshly constructed database with no persisted files. -/
def initState : DBState := { store := [], vecs := [], id_to_idx := [], idx_to_id := [] }

/-- ResNet50 feature dimension (card_database.py line 80). -/
def featureDim : ℕ := 2048

/-- Outcome of the SQLite write inside `add_card`: either it succeeds or the
durable medium is unavailable and `cursor.execute`/`conn.commit` raises. -/
inductive Fault where
  | ok
  | storageFail
deriving DecidableEq

/-- Model of the INSERT OR REPLACE on the `cards` table: the conflicting row
(same primary key) is deleted and the new row is appended with a fresh rowid. -/
def putRow (store : List StoredRow) (r : StoredRow) : List StoredRow :=
  store.filter (fun x => !(x.card_id == r.card_id)) ++ [r]

/-- Model of `CardDatabase.add_card` (card_database.py lines 166-224).
On a storage fault the exception is caught, `False` is returned, and no state
change survives.  Otherwise the row is written; if a feature vector is present
it is normalised and appended to the FAISS index and both mapping dicts are
updated — unless the vector has the wrong dimensionality, in which case
`faiss.Index.add` raises, the exception is caught, and `False` is returned
with the row already committed.  The periodic save is not modelled here
(durable files are modelled separately by `closeDB`). -/
def add_card (st : DBState) (e : CardEntry) (f : Fault) : DBState × Bool :=
  match f with
  | .storageFail => (st, false)
  | .ok =>
    let store' := putRow st.store (rowOfEntry e)
    match e.feature_vector with
    | none => ({ st with store := store' }, true)
    | some v =>
      if v.length = featureDim then
        ({ store := store',
           vecs := st.vecs ++ [normalizeL2 v],
           id_to_idx := assocUpd st.id_to_idx e.card_id st.vecs.length,
           idx_to_id := assocUpd st.idx_to_id st.vecs.length e.card_id }, true)
      else
        ({ st with store := store' }, false)

/-- Model of `CardDatabase.get_card` (card_database.py lines 226-249):
row lookup by primary key; `feature_vector` comes back as `None`. -/
def get_card (st : DBState) (cid : String) : Option CardEntry :=
  (st.store.find? (fun r => r.card_id == cid)).map entryOfRow

/-- The `(distance, entry)` pairs collected by `find_by_hash` before sorting
(card_database.py lines 268-295): rows with a hash, whose Hamming distance to
the query is within the threshold, in rowid order. -/
def hashMatches (store : List StoredRow) (h : List Bool) (d : ℕ) : List (ℕ × StoredRow) :=
  (store.filter (fun r => r.perceptual_hash.isSome)).filterMap (fun r =>
    match r.perceptual_hash with
    | some sh => if hamming h sh ≤ d then some (hamming h sh, r) else none
    | none => none)

/-- Model of `CardDatabase.find_by_hash` (card_database.py lines 251-299):
collect matches within the distance threshold, stable-sort ascending by
distance (Python's `list.sort` is stable), return the entries. -/
def find_by_hash (st : DBState) (h : List Bool) (d : ℕ) : List CardEntry :=
  (sortLe (fun a b => decide (a.1 ≤ b.1)) (hashMatches st.store h d)).map
    (fun m => entryOfRow m.2)

/-- Model of `faiss.IndexFlatIP.search` on the stored vectors: score every
slot by inner product with the query, order by score descending (stable, so
ties keep slot order), return the first `k`.  The `-1` padding FAISS emits
when fewer than `k` vectors exist is represented by simply returning fewer
results, matching the `idx == -1: continue` in the caller. -/
def search (vecs : List (List ℚ)) (q : List ℚ) (k : ℕ) : List (ℕ × ℚ) :=
  (sortLe (fun a b => decide (b.2 ≤ a.2))
    (vecs.enum.map (fun p => (p.1, dot q p.2)))).take k

/-- Loop body of `find_similar` (card_database.py lines 329-339): a result
below the threshold is skipped; the slot is resolved through `_idx_to_id`
(a falsy — empty — card id is skipped) and then through `get_card` (a missing
row is skipped). -/
def resolveHit (st : DBState) (threshold : ℚ) (hit : ℕ × ℚ) :
    Option (CardEntry × ℚ) :=
  if hit.2 < threshold then none
  else
    match assocGet st.idx_to_id hit.1 with
    | none => none
    | some cid =>
      if cid = "" then none
      else
        match get_card st cid with
        | some card => some (card, hit.2)
        | none => none

/-- Model of `CardDatabase.find_similar` (card_database.py lines 301-341):
empty index short-circuits; the query is normalised by the function itself
(`faiss.normalize_L2(query)` on line 323); then every search hit is resolved
by `resolveHit`, dropped hits leaving no trace. -/
def find_similar (st : DBState) (q : List ℚ) (top_k : ℕ) (threshold : ℚ) :
    List (CardEntry × ℚ) :=
  if st.vecs.length = 0 then []
  else
    (search st.vecs (normalizeL2 q) top_k).filterMap (resolveHit st threshold)

/-! ## Merge logic of the recognize endpoint (app.py) -/

/-- Candidate dictionary built by `recognize_card` for each similar card
(app.py lines 109-133). -/
structure Candidate where
  card_id : String
  name : String
  set_name : String
  category : String
  tcgplayer_id : Option String
  similarity : ℚ
deriving DecidableEq

/-- Candidate built from a card entry and a similarity score. -/
def candOf (c : CardEntry) (s : ℚ) : Candidate :=
  { card_id := c.card_id, name := c.name, set_name := c.set_name,
    category := c.category, tcgplayer_id := c.tcgplayer_product_id,
    similarity := s }

/-- Fixed confidence score given to hash matches (app.py line 132). -/
def hashScore : ℚ := 9 / 10

/-- Merge step of `recognize_card` (app.py lines 122-133): start from the
embedding candidates; for each of the first three hash matches, append it with
the fixed hash score unless a candidate with the same `card_id` is already in
the accumulated list. -/
def mergeMatches (emb : List (CardEntry × ℚ)) (hashm : List CardEntry) :
    List Candidate :=
  (hashm.take 3).foldl
    (fun acc card =>
      if acc.any (fun c => c.card_id == card.card_id) then acc
      else acc ++ [candOf card hashScore])
    (emb.map (fun p => candOf p.1 p.2))

/-- The `similar_cards` list computed by `recognize_card` (app.py lines
105-133): embedding search with `top_k=3, threshold=0.6` when features are
present, hash search with `threshold=8` when a hash is present, then merge. -/
def recognizeSimilarCards (st : DBState) (features : Option (List ℚ))
    (p_hash : Option (List Bool)) : List Candidate :=
  let emb := match features with
    | some f => find_similar st f 3 (3/5)
    | none => []
  let hm := match p_hash with
    | some h => find_by_hash st h 8
    | none => []
  mergeMatches emb hm

/-- Boolean check that a candidate list is ordered by similarity descending. -/
def scoresDesc : List Candidate → Bool
  | [] => true
  | [_] => true
  | a :: b :: rest => decide (b.similarity ≤ a.similarity) && scoresDesc (b :: rest)

/-! ## Persistence (startup and shutdown) -/

/-- State of one persisted file: absent, unreadable, or holding data. -/
inductive FileState (α : Type) where
  | absent
  | corrupt
  | stored (data : α)
deriving DecidableEq

/-- Contents of the `.mapping` pickle: the two dicts
(card_database.py lines 154-158). -/
def MappingData : Type := (List (String × ℕ)) × (List (ℕ × String))

instance : DecidableEq MappingData := by
  unfold MappingData
  infer_instance

/-- The two durable artifacts: the FAISS `.index` file and the `.mapping`
pickle (card_database.py lines 132, 142). -/
structure Durable where
  indexFile : FileState (List (List ℚ))
  mappingFile : FileState MappingData
deriving DecidableEq

/-- Model of `CardDatabase._init_index` (card_database.py lines 126-138):
a missing file yields a fresh empty `IndexFlatIP`; a corrupt file makes
`faiss.read_index` raise, which is fatal to initialization. -/
def initIndexFrom : FileState (List (List ℚ)) → Except String (List (List ℚ))
  | .absent => .ok []
  | .corrupt => .error "read_index failed"
  | .stored d => .ok d

/-- Model of `CardDatabase._load_index_mapping` (card_database.py lines
140-148): a missing file leaves the two dicts empty; a corrupt file makes
`pickle.load` raise, which is fatal to initialization. -/
def initMappingFrom : FileState MappingData → Except String MappingData
  | .absent => .ok ([], [])
  | .corrupt => .error "pickle load failed"
  | .stored d => .ok d

/-- Startup of a `CardDatabase` from the persisted files (the SQLite rows are
passed through; `_init_database` only creates tables if absent). -/
def startupState (fi : FileState (List (List ℚ))) (fm : FileState MappingData)
    (rows : List StoredRow) : Except String DBState :=
  match initIndexFrom fi, initMappingFrom fm with
  | .ok v, .ok m => .ok { store := rows, vecs := v, id_to_idx := m.1, idx_to_id := m.2 }
  | .error e, _ => .error e
  | .ok _, .error e => .error e

/-- How far `CardDatabase.close` got (card_database.py lines 381-384): it
writes the index file (`_save_index`) and then the mapping file
(`_save_index_mapping`) as two separate plain writes; an interruption between
them leaves only the index file updated. -/
inductive CloseOutcome where
  | completed
  | crashAfterIndexWrite
deriving DecidableEq

/-- Model of `CardDatabase.close` acting on the durable files. -/
def closeDB (st : DBState) (d : Durable) : CloseOutcome → Durable
  | .completed =>
      { indexFile := .stored st.vecs,
        mappingFile := .stored (st.id_to_idx, st.idx_to_id) }
  | .crashAfterIndexWrite =>
      { d with indexFile := .stored st.vecs }

/-! ## Executions and invariants -/

/-- Run a sequence of `add_card` calls from a starting state. -/
def run (st : DBState) (ops : List (CardEntry × Fault)) : DBState :=
  ops.foldl (fun s p => (add_card s p.1 p.2).1) st

/-- The two mapping dicts are mutually inverse: `card_id -> slot` and
`slot -> card_id` agree on every bound pair. -/
def mutualInverse (st : DBState) : Prop :=
  ∀ cid slot, assocGet st.id_to_idx cid = some slot ↔
    assocGet st.idx_to_id slot = some cid

/-- Distance from a query fingerprint to an entry's stored fingerprint. -/
def entryDist (h : List Bool) (e : CardEntry) : ℕ :=
  hamming h (e.perceptual_hash.getD [])

/-- Induction invariant for mapping consistency: every slot bound in
`idx_to_id` is a real slot of the index, every card id bound in `id_to_idx`
has been used by some earlier insert, and the two maps are mutually inverse. -/
def mapInv (st : DBState) (used : String → Prop) : Prop :=
  (∀ i c, assocGet st.idx_to_id i = some c → i < st.vecs.length) ∧
  (∀ c i, assocGet st.id_to_idx c = some i → used c) ∧
  mutualInverse st

/-! ## Concrete instances used by counterexamples and witnesses -/

/-- Standard basis vector of dimension `n` with a one in position `i`. -/
def unitVec (n i : ℕ) : List ℚ := (List.range n).map (fun j => if j = i then 1 else 0)

/-- An 8-bit fingerprint used by the examples. -/
def hashA : List Bool := [true, true, false, false, true, true, false, false]

/-- Card "A" as first added: embedding along axis 0, fingerprint `hashA`. -/
def entryA1 : CardEntry :=
  { card_id := "A", name := "Alpha", set_name := "S1", category := "pokemon",
    tcgplayer_product_id := some "111", image_path := none, image_url := none,
    feature_vector := some (unitVec featureDim 0), perceptual_hash := some hashA,
    created_at := "t1", updated_at := "t1" }

/-- Card "A" as re-added: a new embedding along axis 1, same fingerprint. -/
def entryA2 : CardEntry :=
  { card_id := "A", name := "Alpha", set_name := "S1", category := "pokemon",
    tcgplayer_product_id := some "111", image_path := none, image_url := none,
    feature_vector := some (unitVec featureDim 1), perceptual_hash := some hashA,
    created_at := "t1", updated_at := "t2" }

/-- Card "B" with an embedding and no fingerprint. -/
def entryB : CardEntry :=
  { card_id := "B", name := "Beta", set_name := "S2", category := "magic",
    tcgplayer_product_id := none, image_path := none, image_url := none,
    feature_vector := some (unitVec featureDim 0), perceptual_hash := none,
    created_at := "t3", updated_at := "t3" }

/-- State reached from a fresh database by adding card "A" twice, the second
time with a different embedding (the re-add path of `add_card`). -/
def stDoubleAdd : DBState := run initState [(entryA1, .ok), (entryA2, .ok)]

/-- Query embedding with weight 3/5 on axis 0 and 4/5 on axis 1 (unit norm). -/
def qMixed : List ℚ :=
  (List.range featureDim).map (fun j => if j = 0 then 3/5 else if j = 1 then 4/5 else 0)

/-- Hash-only row for card "A" (two-dimensional toy states). -/
def rowA2d : StoredRow :=
  { card_id := "A", name := "Alpha", set_name := "S1", category := "pokemon",
    tcgplayer_product_id := some "111", image_path := none, image_url := none,
    perceptual_hash := some hashA, created_at := "t1", updated_at := "t1" }

/-- Row for card "B" with no fingerprint (two-dimensional toy states). -/
def rowB2d : StoredRow :=
  { card_id := "B", name := "Beta", set_name := "S2", category := "magic",
    tcgplayer_product_id := none, image_path := none, image_url := none,
    perceptual_hash := none, created_at := "t3", updated_at := "t3" }

/-- Toy state for the merge-ordering counterexample: card "B" holds the only
index slot, card "A" is hash-only. -/
def stMergeOrder : DBState :=
  { store := [rowA2d, rowB2d], vecs := [[1, 0]],
    id_to_idx := [("B", 0)], idx_to_id := [(0, "B")] }

/-- Toy state for the normalisation counterexample: card "A" holds the only
index slot, whose stored vector is the first basis vector. -/
def stNormalize : DBState :=
  { store := [rowA2d], vecs := [[1, 0]],
    id_to_idx := [("A", 0)], idx_to_id := [(0, "A")] }

/-- Toy state for the dropped-slot scenario: two indexed vectors but only slot
0 has a mapping entry (the situation after restarting from a stale mapping
file), so slot 1 cannot be resolved to a card. -/
def stDropped : DBState :=
  { store := [rowA2d], vecs := [[1, 0], [0, 1]],
    id_to_idx := [("A", 0)], idx_to_id := [(0, "A")] }

/-- Entry whose feature vector has the wrong dimensionality, making
`faiss.Index.add` raise inside `add_card`. -/
def entryBadDim : CardEntry :=
  { card_id := "D", name := "Delta", set_name := "S4", category := "yugioh",
    tcgplayer_product_id := none, image_path := none, image_url := none,
    feature_vector := some [1], perceptual_hash := none,
    created_at := "t4", updated_at := "t4" }

/-- Entry with no feature vector (metadata-only card). -/
def entryNoVec : CardEntry :=
  { card_id := "E", name := "Echo", set_name := "S5", category := "pokemon",
    tcgplayer_product_id := none, image_path := none, image_url := none,
    feature_vector := none, perceptual_hash := some hashA,
    created_at := "t5", updated_at := "t5" }

/-- Durable files as left by a prior checkpoint of the fresh state. -/
def durablePrior : Durable :=
  { indexFile := .stored [], mappingFile := .stored ([], []) }

/-- Three-row store for the hash-search witness: two rows at distance 0 and 2
from `hashA`, one row without a fingerprint. -/
def stHashes : DBState :=
  { store :=
      [ rowA2d,
        { card_id := "C", name := "Gamma", set_name := "S3", category := "magic",
          tcgplayer_product_id := none, image_path := none, image_url := none,
          perceptual_hash := some [true, true, true, true, true, true, false, false],
          created_at := "t6", updated_at := "t6" },
        rowB2d,
        { card_id := "F", name := "Fox", set_name := "S6", category := "pokemon",
          tcgplayer_product_id := none, image_path := none, image_url := none,
          perceptual_hash := some hashA, created_at := "t7", updated_at := "t7" } ],
    vecs := [], id_to_idx := [], idx_to_id := [] }

/-! ## Lemmas: stable insertion sort -/

theorem mem_insertLe {le : α → α → Bool} {x a : α} {l : List α} :
    a ∈ insertLe le x l ↔ a = x ∨ a ∈ l := by
  induction l with
  | nil => simp [insertLe]
  | cons y ys ih =>
    simp only [insertLe]
    split
    · simp [List.mem_cons]
    · simp only [List.mem_cons, ih]
      tauto

theorem insertLe_perm (le : α → α → Bool) (x : α) (l : List α) :
    (insertLe le x l).Perm (x :: l) := by
  induction l with
  | nil => simp [insertLe]
  | cons y ys ih =>
    simp only [insertLe]
    split
    · exact List.Perm.refl _
    · exact List.Perm.trans (List.Perm.cons y ih) (List.Perm.swap x y ys)

theorem sortLe_perm (le : α → α → Bool) (l : List α) : (sortLe le l).Perm l := by
  induction l with
  | nil => exact List.Perm.refl _
  | cons x xs ih =>
    exact List.Perm.trans (insertLe_perm le x (sortLe le xs)) (List.Perm.cons x ih)

theorem pairwise_insertLe {le : α → α → Bool}
    (htot : ∀ a b, le a b = true ∨ le b a = true)
    (htr : ∀ a b c, le a b = true → le b c = true → le a c = true)
    {x : α} {l : List α} (hl : l.Pairwise (fun a b => le a b = true)) :
    (insertLe le x l).Pairwise (fun a b => le a b = true) := by
  induction l with
  | nil => simp [insertLe]
  | cons y ys ih =>
    obtain ⟨h1, h2⟩ := List.pairwise_cons.mp hl
    simp only [insertLe]
    split
    · rename_i hxy
      refine List.pairwise_cons.mpr ⟨?_, hl⟩
      intro z hz
      rcases List.mem_cons.mp hz with rfl | hz
      · exact hxy
      · exact htr x y z hxy (h1 z hz)
    · rename_i hxy
      have hyx : le y x = true := by
        rcases htot x y with h | h
        · exact absurd h hxy
        · exact h
      refine List.pairwise_cons.mpr ⟨?_, ih h2⟩
      intro z hz
      rcases mem_insertLe.mp hz with rfl | hz
      · exact hyx
      · exact h1 z hz

theorem sortLe_sorted {le : α → α → Bool}
    (htot : ∀ a b, le a b = true ∨ le b a = true)
    (htr : ∀ a b c, le a b = true → le b c = true → le a c = true)
    (l : List α) :
    (sortLe le l).Pairwise (fun a b => le a b = true) := by
  induction l with
  | nil => simp [sortLe]
  | cons x xs ih => exact pairwise_insertLe htot htr ih

theorem filter_insertLe_pos {le : α → α → Bool} {p : α → Bool} {x : α}
    (hx : p x = true) (hcomp : ∀ y, le x y = false → p y = false) (l : List α) :
    (insertLe le x l).filter p = x :: l.filter p := by
  induction l with
  | nil => simp [insertLe, hx]
  | cons y ys ih =>
    simp only [insertLe]
    split
    · simp [List.filter_cons, hx]
    · rename_i hxy
      have hpy : p y = false := hcomp y (by simpa using hxy)
      simp [List.filter_cons, hpy, ih]

theorem filter_insertLe_neg {le : α → α → Bool} {p : α → Bool} {x : α}
    (hx : p x = false) (l : List α) :
    (insertLe le x l).filter p = l.filter p := by
  induction l with
  | nil => simp [insertLe, hx]
  | cons y ys ih =>
    simp only [insertLe]
    split
    · simp [List.filter_cons, hx]
    · simp [List.filter_cons, ih]

theorem sortLe_filter_stable {le : α → α → Bool} {p : α → Bool}
    (hcomp : ∀ x y, p x = true → le x y = false → p y = false) (l : List α) :
    (sortLe le l).filter p = l.filter p := by
  induction l with
  | nil => rfl
  | cons x xs ih =>
    by_cases hx : p x = true
    · rw [sortLe, filter_insertLe_pos hx (fun y hy => hcomp x y hx hy), ih]
      simp [List.filter_cons, hx]
    · have hx' : p x = false := by simpa using hx
      rw [sortLe, filter_insertLe_neg hx', ih]
      simp [List.filter_cons, hx']

theorem pairwise_filterMap_of {f : α → Option β} {R : α → α → Prop}
    {S : β → β → Prop} {l : List α} (h : l.Pairwise R)
    (hf : ∀ a b a' b', R a b → f a = some a' → f b = some b' → S a' b') :
    (l.filterMap f).Pairwise S := by
  induction l with
  | nil => simp
  | cons x xs ih =>
    obtain ⟨h1, h2⟩ := List.pairwise_cons.mp h
    cases hfx : f x with
    | none => simpa [List.filterMap_cons, hfx] using ih h2
    | some b =>
      simp only [List.filterMap_cons, hfx]
      refine List.pairwise_cons.mpr ⟨?_, ih h2⟩
      intro b' hb'
      obtain ⟨a, ha, hfa⟩ := List.mem_filterMap.mp hb'
      exact hf x a b b' (h1 a ha) hfx hfa

/-! ## Lemmas: association lists -/

theorem assocGet_eq_none_iff [BEq κ] [LawfulBEq κ] {l : List (κ × β)} {k : κ} :
    assocGet l k = none ↔ ∀ p ∈ l, p.1 ≠ k := by
  simp [assocGet, List.find?_eq_none]

theorem assocUpd_of_none [BEq κ] [LawfulBEq κ] {l : List (κ × β)} {k : κ}
    (h : assocGet l k = none) (v : β) :
    assocUpd l k v = l ++ [(k, v)] := by
  have hany : l.any (fun p => p.1 == k) = false := by
    by_contra hc
    rw [Bool.not_eq_false, List.any_eq_true] at hc
    obtain ⟨p, hp, hpk⟩ := hc
    exact (assocGet_eq_none_iff.mp h p hp) (by simpa using hpk)
  simp [assocUpd, hany]

theorem assocGet_append_single [BEq κ] [LawfulBEq κ] (l : List (κ × β))
    (k k' : κ) (v : β) :
    assocGet (l ++ [(k, v)]) k' =
      (assocGet l k').or (if k' == k then some v else none) := by
  unfold assocGet
  rw [List.find?_append]
  cases hf : l.find? (fun p => p.1 == k') with
  | some p => simp [hf, Option.or]
  | none =>
    by_cases hk : k' = k
    · have h2 : (k' == k) = true := beq_iff_eq.mpr hk
      have hkk : (k == k') = true := beq_iff_eq.mpr hk.symm
      have hs : List.find? (fun p => p.1 == k') [(k, v)] = some (k, v) := by
        simp [List.find?, hkk]
      simp [hf, hs, h2, Option.or]
    · have h1 : (k == k') = false := beq_eq_false_iff_ne.mpr fun h' => hk h'.symm
      have h2 : (k' == k) = false := beq_eq_false_iff_ne.mpr hk
      have hs : List.find? (fun p => p.1 == k') [(k, v)] = none := by
        simp [List.find?, h1]
      simp [hf, hs, h2, Option.or]

/-! ## Lemmas: vectors and normalisation -/

theorem ratSqrt_eval (a b : ℕ) (q : ℚ) (h1 : q.num.toNat = a ^ 2)
    (h2 : q.den = b ^ 2) : ratSqrt q = (a : ℚ) / b := by
  unfold ratSqrt
  rw [h1, h2, Nat.sqrt_eq', Nat.sqrt_eq']

theorem ratSqrt_one : ratSqrt 1 = 1 := by
  rw [ratSqrt_eval 1 1 1 (by decide) (by decide)]
  norm_num

theorem length_unitVec (n i : ℕ) : (unitVec n i).length = n := by
  simp [unitVec]

theorem dot_map_div (r : ℚ) : ∀ v w : List ℚ,
    dot (v.map (fun x => x / r)) (w.map (fun x => x / r)) = dot v w / (r * r)
  | [], [] => by simp [dot]
  | [], _ :: _ => by simp [dot]
  | _ :: _, [] => by simp [dot]
  | a :: v, b :: w => by
    simp only [List.map_cons, dot]
    rw [dot_map_div r v w, div_mul_div_comm, div_add_div_same]

theorem normSq_normalizeL2 (v : List ℚ)
    (hex : ratSqrt (normSq v) * ratSqrt (normSq v) = normSq v)
    (h0 : normSq v ≠ 0) : normSq (normalizeL2 v) = 1 := by
  unfold normalizeL2
  unfold normSq at *
  rw [dot_map_div, hex]
  exact div_self h0

theorem normalizeL2_of_normSq_one {v : List ℚ} (h : normSq v = 1) :
    normalizeL2 v = v := by
  unfold normalizeL2
  rw [h, ratSqrt_one]
  simp

theorem normalizeL2_idem (v : List ℚ)
    (hex : ratSqrt (normSq v) * ratSqrt (normSq v) = normSq v)
    (h0 : normSq v ≠ 0) :
    normalizeL2 (normalizeL2 v) = normalizeL2 v :=
  normalizeL2_of_normSq_one (normSq_normalizeL2 v hex h0)

/-! ## Lemmas: metadata store round trip -/

theorem entryOfRow_rowOfEntry (e : CardEntry) :
    entryOfRow (rowOfEntry e) = stripVec e := rfl

theorem store_add_card_ok (st : DBState) (e : CardEntry) :
    (add_card st e .ok).1.store = putRow st.store (rowOfEntry e) := by
  unfold add_card
  cases hfv : e.feature_vector with
  | none => simp [hfv]
  | some v =>
    simp only [hfv]
    split <;> rfl

theorem get_card_add_ok (st : DBState) (e : CardEntry) :
    get_card (add_card st e .ok).1 e.card_id = some (stripVec e) := by
  unfold get_card
  rw [store_add_card_ok]
  unfold putRow
  rw [List.find?_append]
  have hnone : (st.store.filter fun x => !(x.card_id == (rowOfEntry e).card_id)).find?
      (fun r => r.card_id == e.card_id) = none := by
    rw [List.find?_eq_none]
    intro x hx
    have h2 := (List.mem_filter.mp hx).2
    simp only [rowOfEntry] at h2
    simpa using h2
  have hone : List.find? (fun r => r.card_id == e.card_id) [rowOfEntry e] =
      some (rowOfEntry e) := by
    simp [List.find?, rowOfEntry]
  rw [hnone, Option.none_or, hone]
  simp [entryOfRow_rowOfEntry]

/-! ## Claim C1 -/

/-- Claim C1 fails on the code: `get_card` reconstructs the entry with
`feature_vector=None` (the vector is not stored in SQLite), so a record put
with a feature vector is not returned unchanged.  Concretely, adding card
`entryA1` (which carries a 2048-dimensional feature vector) succeeds and the
subsequent get returns the record with the vector erased, which differs from
the record that was put. -/
theorem C1_counterexample :
    (add_card initState entryA1 .ok).2 = true ∧
    get_card (add_card initState entryA1 .ok).1 "A" = some (stripVec entryA1) ∧
    stripVec entryA1 ≠ entryA1 := by
  refine ⟨?_, get_card_add_ok initState entryA1, by decide⟩
  simp [add_card, entryA1, length_unitVec, featureDim]

/-- Claim C1 (amended): after a successful `add_card`, `get_card` with the
same `card_id` returns the record with every stored column unchanged, but
with the feature vector always erased to `None` — the round trip holds
exactly for the SQLite-backed fields. -/
theorem C1_roundtrip_amended (st : DBState) (e : CardEntry) :
    get_card (add_card st e .ok).1 e.card_id = some (stripVec e) :=
  get_card_add_ok st e

/-! ## Claim C6 -/

/-- Claim C6 fails on the code: `add_card` wraps everything in
`try/except Exception` and returns the bare boolean `False` on any failure,
so a storage failure is observationally identical to, e.g., an
invalid-dimensionality failure — nothing distinct is surfaced. -/
theorem C6_counterexample :
    (add_card initState entryNoVec .storageFail).2 = false ∧
    (add_card initState entryBadDim .ok).2 = false ∧
    (add_card initState entryNoVec .storageFail).2 =
      (add_card initState entryBadDim .ok).2 := by
  refine ⟨rfl, by decide, by decide⟩

/-- Claim C6 (amended): a storage failure makes `add_card` return the
generic boolean `False` with the state unchanged, exactly like any other
failure (such as a feature vector of the wrong dimensionality); no distinct
error kind reaches the caller. -/
theorem C6_amended :
    (∀ st e, add_card st e .storageFail = (st, false)) ∧
    (∀ st e v, e.feature_vector = some v → v.length ≠ featureDim →
      (add_card st e .ok).2 = false) := by
  constructor
  · intro st e
    rfl
  · intro st e v hv hlen
    unfold add_card
    rw [hv]
    simp [hlen]

/-- Witness for claim C6 (amended) at concrete inputs. -/
theorem C6_amended_witness :
    add_card initState entryNoVec .storageFail = (initState, false) ∧
    (add_card initState entryBadDim .ok).2 = false :=
  ⟨C6_amended.1 initState entryNoVec,
   C6_amended.2 initState entryBadDim [1] rfl (by decide)⟩

/-! ## Claim C8 -/

/-- Claim C8 holds: initialising with both persisted files absent yields the
fresh empty state — an empty index of size 0 and empty mappings — and not an
error. -/
theorem C8_missing_files_empty :
    startupState .absent .absent [] = .ok initState ∧
    initIndexFrom .absent = .ok ([] : List (List ℚ)) ∧
    initMappingFrom .absent = .ok (([], []) : MappingData) ∧
    initState.vecs.length = 0 :=
  ⟨rfl, rfl, rfl, rfl⟩

/-! ## Claim C9 -/

/-- Claim C9 fails on the code: `close` writes the index file and the mapping
file as two separate sequential writes with no atomic rename, so an
interruption after the index write leaves a durable state that is neither the
fully updated pair nor the prior pair: on restart the new index (one vector)
loads next to the prior empty mapping. -/
theorem C9_counterexample :
    closeDB stNormalize durablePrior .crashAfterIndexWrite ≠
      closeDB stNormalize durablePrior .completed ∧
    closeDB stNormalize durablePrior .crashAfterIndexWrite ≠ durablePrior ∧
    initIndexFrom (closeDB stNormalize durablePrior .crashAfterIndexWrite).indexFile =
      .ok [[1, 0]] ∧
    initMappingFrom (closeDB stNormalize durablePrior .crashAfterIndexWrite).mappingFile =
      .ok (([], []) : MappingData) :=
  ⟨by decide, by decide, rfl, rfl⟩

/-- Claim C9 (amended): a completed `close` makes both files store the
in-memory state (and reloading restores exactly that state), while an
interrupted `close` leaves the new index file next to the untouched prior
mapping file — the two writes are sequential and not atomic as a unit. -/
theorem C9_close_amended (st : DBState) (d : Durable) :
    closeDB st d .completed =
      { indexFile := .stored st.vecs,
        mappingFile := .stored (st.id_to_idx, st.idx_to_id) } ∧
    initIndexFrom (closeDB st d .completed).indexFile = .ok st.vecs ∧
    initMappingFrom (closeDB st d .completed).mappingFile =
      .ok (st.id_to_idx, st.idx_to_id) ∧
    (closeDB st d .crashAfterIndexWrite).indexFile = .stored st.vecs ∧
    (closeDB st d .crashAfterIndexWrite).mappingFile = d.mappingFile :=
  ⟨rfl, rfl, rfl, rfl, rfl⟩

/-! ## Claim C4 -/

theorem find_similar_stNormalize (q : List ℚ) (hq : normalizeL2 q = [1, 0]) :
    find_similar stNormalize q 1 0 = [(entryOfRow rowA2d, 1)] := by
  simp only [find_similar, stNormalize, hq]
  norm_num [search, List.enum, List.enumFrom, sortLe, insertLe, dot,
    resolveHit, assocGet, List.find?, get_card, rowA2d, entryOfRow,
    List.filterMap_cons]
  rfl

/-- Claim C4 fails on the code: `find_similar` itself calls
`faiss.normalize_L2` on the query, so the score it returns for the non-unit
query `[2, 0]` against the stored unit vector `[1, 0]` is 1 (the inner
product with the normalised query) and not 2 (the inner product with the raw
query); consequently searching with `[2, 0]` and with its normalisation
`[1, 0]` returns identical results rather than possibly differing. -/
theorem C4_counterexample :
    find_similar stNormalize [2, 0] 1 0 = [(entryOfRow rowA2d, 1)] ∧
    find_similar stNormalize [1, 0] 1 0 = [(entryOfRow rowA2d, 1)] ∧
    dot [2, 0] [1, 0] = 2 ∧
    (2 : ℚ) ≠ 1 := by
  have h2 : normalizeL2 [(2 : ℚ), 0] = [1, 0] := by
    have hns : normSq [(2 : ℚ), 0] = 4 := by norm_num [normSq, dot]
    unfold normalizeL2
    rw [hns, ratSqrt_eval 2 1 4 (by decide) (by decide)]
    norm_num
  have h1 : normalizeL2 [(1 : ℚ), 0] = [1, 0] := by
    have hns : normSq [(1 : ℚ), 0] = 1 := by norm_num [normSq, dot]
    rw [normalizeL2_of_normSq_one hns]
  exact ⟨find_similar_stNormalize _ h2, find_similar_stNormalize _ h1,
    by norm_num [dot], by norm_num⟩

/-- Claim C4 (amended): `find_similar` re-normalises the query itself, so for
any query with nonzero squared norm (within the exactly representable
fragment of the square root) searching with the raw query and with the
caller-normalised query returns identical results; the caller need not
normalise, and returned scores are inner products with the normalised query. -/
theorem C4_search_normalizes_amended (q : List ℚ)
    (hex : ratSqrt (normSq q) * ratSqrt (normSq q) = normSq q)
    (h0 : normSq q ≠ 0) (st : DBState) (k : ℕ) (t : ℚ) :
    find_similar st q k t = find_similar st (normalizeL2 q) k t := by
  unfold find_similar
  rw [normalizeL2_idem q hex h0]

/-- Witness for claim C4 (amended) at the concrete query `[3, 4]`. -/
theorem C4_search_normalizes_amended_witness :
    ratSqrt (normSq [(3 : ℚ), 4]) * ratSqrt (normSq [(3 : ℚ), 4]) = normSq [(3 : ℚ), 4] ∧
    normSq [(3 : ℚ), 4] ≠ 0 ∧
    find_similar stNormalize [3, 4] 1 0 =
      find_similar stNormalize (normalizeL2 [3, 4]) 1 0 := by
  have h1 : normSq [(3 : ℚ), 4] = 25 := by norm_num [normSq, dot]
  have h2 : ratSqrt (25 : ℚ) = 5 := by
    rw [ratSqrt_eval 5 1 25 (by decide) (by decide)]
    norm_num
  have hex : ratSqrt (normSq [(3 : ℚ), 4]) * ratSqrt (normSq [(3 : ℚ), 4]) =
      normSq [(3 : ℚ), 4] := by
    rw [h1, h2]
    norm_num
  have h0 : normSq [(3 : ℚ), 4] ≠ 0 := by
    rw [h1]
    norm_num
  exact ⟨hex, h0, C4_search_normalizes_amended [3, 4] hex h0 stNormalize 1 0⟩

/-! ## Claim C10 -/

theorem get_card_some_id {st : DBState} {cid : String} {c : CardEntry}
    (h : get_card st cid = some c) : c.card_id = cid := by
  unfold get_card at h
  cases hf : st.store.find? (fun r => r.card_id == cid) with
  | none => simp [hf] at h
  | some r =>
    rw [hf] at h
    have hr := List.find?_some hf
    have hc : entryOfRow r = c := by simpa using h
    rw [← hc]
    simpa [entryOfRow] using hr

theorem resolveHit_some {st : DBState} {t : ℚ} {hit : ℕ × ℚ} {c : CardEntry}
    {s : ℚ} (h : resolveHit st t hit = some (c, s)) :
    s = hit.2 ∧ ¬ hit.2 < t ∧ assocGet st.idx_to_id hit.1 = some c.card_id ∧
      c.card_id ≠ "" ∧ get_card st c.card_id = some c := by
  unfold resolveHit at h
  split at h
  · exact absurd h (by simp)
  · rename_i hlt
    split at h
    · exact absurd h (by simp)
    · rename_i cid hm
      split at h
      · exact absurd h (by simp)
      · rename_i hne
        split at h
        · rename_i card hg
          simp only [Option.some.injEq, Prod.mk.injEq] at h
          obtain ⟨hc1, hc2⟩ := h
          subst hc1
          subst hc2
          have hid : card.card_id = cid := get_card_some_id hg
          rw [hid]
          exact ⟨rfl, hlt, hm, hne, hg⟩
        · exact absurd h (by simp)

theorem find_similar_length_le (st : DBState) (q : List ℚ) (k : ℕ) (t : ℚ) :
    (find_similar st q k t).length ≤ k := by
  unfold find_similar
  split
  · simp
  · calc ((search st.vecs (normalizeL2 q) k).filterMap (resolveHit st t)).length
        ≤ (search st.vecs (normalizeL2 q) k).length :=
          List.length_filterMap_le _ _
      _ ≤ k := List.length_take_le _ _

/-- Claim C10 holds: every candidate returned by `find_similar` comes from a
slot with a (non-empty) mapping entry whose card is still present in the
metadata store — slots failing either lookup are dropped without error — and
in the concrete state `stDropped` (two indexed vectors, both scoring above
the threshold, but only slot 0 mapped) a search with `top_k = 2` returns a
single candidate. -/
theorem C10_dropped_slots :
    (∀ (st : DBState) (q : List ℚ) (k : ℕ) (t : ℚ) (c : CardEntry) (s : ℚ),
      (c, s) ∈ find_similar st q k t →
        c.card_id ≠ "" ∧ get_card st c.card_id = some c ∧ ¬ s < t ∧
        ∃ i, assocGet st.idx_to_id i = some c.card_id) ∧
    (∀ st q k t, (find_similar st q k t).length ≤ k) ∧
    find_similar stDropped [3/5, 4/5] 2 (1/2) = [(entryOfRow rowA2d, 3/5)] ∧
    stDropped.vecs.length = 2 ∧
    (∀ v ∈ stDropped.vecs, ¬ dot (normalizeL2 [3/5, 4/5]) v < (1/2 : ℚ)) ∧
    assocGet stDropped.idx_to_id 1 = none := by
  have hn : normalizeL2 [(3 : ℚ)/5, 4/5] = [3/5, 4/5] :=
    normalizeL2_of_normSq_one (by norm_num [normSq, dot])
  refine ⟨?_, ?_, ?_, rfl, ?_, by decide⟩
  · intro st q k t c s hmem
    unfold find_similar at hmem
    split at hmem
    · simp at hmem
    · obtain ⟨hit, _, hres⟩ := List.mem_filterMap.mp hmem
      obtain ⟨hs, hlt, hmap, hne, hget⟩ := resolveHit_some hres
      subst hs
      exact ⟨hne, hget, hlt, hit.1, hmap⟩
  · exact find_similar_length_le
  · simp only [find_similar, stDropped, hn]
    norm_num [search, List.enum, List.enumFrom, sortLe, insertLe, dot,
      resolveHit, assocGet, List.find?, get_card, rowA2d, entryOfRow,
      List.filterMap_cons]
    rfl
  · intro v hv
    rw [hn]
    have hv' : v = [(1 : ℚ), 0] ∨ v = [(0 : ℚ), 1] := by
      simpa [stDropped] using hv
    rcases hv' with rfl | rfl <;> norm_num [dot]

/-- Witness for claim C10 at the concrete dropped-slot state. -/
theorem C10_dropped_slots_witness :
    ((entryOfRow rowA2d, (3 : ℚ)/5) ∈ find_similar stDropped [3/5, 4/5] 2 (1/2)) ∧
    ((entryOfRow rowA2d).card_id ≠ "" ∧
      get_card stDropped (entryOfRow rowA2d).card_id = some (entryOfRow rowA2d) ∧
      ¬ (3 : ℚ)/5 < 1/2 ∧
      ∃ i, assocGet stDropped.idx_to_id i = some (entryOfRow rowA2d).card_id) := by
  have hmem : (entryOfRow rowA2d, (3 : ℚ)/5) ∈ find_similar stDropped [3/5, 4/5] 2 (1/2) := by
    rw [C10_dropped_slots.2.2.1]
    simp
  exact ⟨hmem, C10_dropped_slots.1 stDropped [3/5, 4/5] 2 (1/2) _ _ hmem⟩

/-! ## Claim C7 -/

theorem hamming_cons (x y : Bool) (a b : List Bool) :
    hamming (x :: a) (y :: b) = (if x = y then 0 else 1) + hamming a b := by
  by_cases hxy : x = y
  · simp [hamming, List.zip_cons_cons, List.filter_cons, hxy]
  · simp [hamming, List.zip_cons_cons, List.filter_cons, hxy, Nat.add_comm]

theorem hamming_eq_zero_iff : ∀ {a b : List Bool}, a.length = b.length →
    (hamming a b = 0 ↔ a = b)
  | [], [], _ => by simp [hamming]
  | [], _ :: _, h => by simp at h
  | _ :: _, [], h => by simp at h
  | x :: a, y :: b, h => by
    have h' : a.length = b.length := by simpa using h
    rw [hamming_cons]
    by_cases hxy : x = y
    · simp [hxy, hamming_eq_zero_iff h']
    · simp [hxy]

theorem hamming_self (a : List Bool) : hamming a a = 0 :=
  (hamming_eq_zero_iff rfl).mpr rfl

theorem hashMatch_fn_some {r : StoredRow} {h : List Bool} {d : ℕ}
    {m : ℕ × StoredRow} :
    (match r.perceptual_hash with
      | some sh => if hamming h sh ≤ d then some (hamming h sh, r) else none
      | none => none) = some m ↔
    ∃ sh, r.perceptual_hash = some sh ∧ hamming h sh ≤ d ∧ m = (hamming h sh, r) := by
  cases hp : r.perceptual_hash with
  | none => simp
  | some sh =>
    by_cases hd : hamming h sh ≤ d
    · simp only [hd, if_true, Option.some.injEq]
      constructor
      · intro he
        exact ⟨sh, rfl, hd, he.symm⟩
      · rintro ⟨sh', hsh', -, rfl⟩
        rw [hsh'.symm]
    · simp only [hd, if_false]
      constructor
      · intro he
        exact absurd he (by simp)
      · rintro ⟨sh', hsh', hd', rfl⟩
        have hss : sh' = sh := by
          injection hsh' with h2
          exact h2.symm
        rw [hss] at hd'
        exact absurd hd' hd

theorem mem_hashMatches {store : List StoredRow} {h : List Bool} {d : ℕ}
    {m : ℕ × StoredRow} :
    m ∈ hashMatches store h d ↔
      ∃ r, r ∈ store ∧ ∃ sh, r.perceptual_hash = some sh ∧
        hamming h sh ≤ d ∧ m = (hamming h sh, r) := by
  unfold hashMatches
  rw [List.mem_filterMap]
  constructor
  · rintro ⟨r, hrf, hfr⟩
    obtain ⟨sh, hsh, hd, hm⟩ := hashMatch_fn_some.mp hfr
    exact ⟨r, (List.mem_filter.mp hrf).1, sh, hsh, hd, hm⟩
  · rintro ⟨r, hr, sh, hsh, hd, hm⟩
    refine ⟨r, List.mem_filter.mpr ⟨hr, by simp [hsh]⟩, ?_⟩
    exact hashMatch_fn_some.mpr ⟨sh, hsh, hd, hm⟩

theorem mem_find_by_hash {st : DBState} {h : List Bool} {d : ℕ} {e : CardEntry} :
    e ∈ find_by_hash st h d ↔
      ∃ r, r ∈ st.store ∧ ∃ sh, r.perceptual_hash = some sh ∧
        hamming h sh ≤ d ∧ e = entryOfRow r := by
  unfold find_by_hash
  rw [List.mem_map]
  constructor
  · rintro ⟨m, hm, rfl⟩
    have hm' := (sortLe_perm _ _).mem_iff.mp hm
    obtain ⟨r, hr, sh, hsh, hd, rfl⟩ := mem_hashMatches.mp hm'
    exact ⟨r, hr, sh, hsh, hd, rfl⟩
  · rintro ⟨r, hr, sh, hsh, hd, rfl⟩
    refine ⟨(hamming h sh, r), ?_, rfl⟩
    exact (sortLe_perm _ _).mem_iff.mpr
      (mem_hashMatches.mpr ⟨r, hr, sh, hsh, hd, rfl⟩)

theorem hashMatches_fst {store : List StoredRow} {h : List Bool} {d : ℕ}
    {m : ℕ × StoredRow} (hm : m ∈ hashMatches store h d) :
    entryDist h (entryOfRow m.2) = m.1 := by
  obtain ⟨r, _, sh, hsh, _, rfl⟩ := mem_hashMatches.mp hm
  simp [entryDist, entryOfRow, hsh]

theorem find_by_hash_sorted (st : DBState) (h : List Bool) (d : ℕ) :
    (find_by_hash st h d).Pairwise (fun a b => entryDist h a ≤ entryDist h b) := by
  unfold find_by_hash
  rw [List.pairwise_map]
  have hs := @sortLe_sorted (ℕ × StoredRow)
    (fun a b => decide (a.1 ≤ b.1))
    (fun a b => by
      rcases Nat.le_total a.1 b.1 with hab | hab
      · left; simpa using hab
      · right; simpa using hab)
    (fun a b c hab hbc => by
      simp at hab hbc ⊢
      omega)
    (hashMatches st.store h d)
  refine List.Pairwise.imp_of_mem ?_ hs
  intro m1 m2 h1 h2 hle
  rw [hashMatches_fst ((sortLe_perm _ _).mem_iff.mp h1),
    hashMatches_fst ((sortLe_perm _ _).mem_iff.mp h2)]
  simpa using hle

theorem find_by_hash_stable (st : DBState) (h : List Bool) (d : ℕ) (c : ℕ) :
    (find_by_hash st h d).filter (fun e => entryDist h e == c) =
      ((hashMatches st.store h d).filter (fun m => m.1 == c)).map
        (fun m => entryOfRow m.2) := by
  unfold find_by_hash
  rw [List.filter_map]
  have hcongr : (sortLe (fun a b : ℕ × StoredRow => decide (a.1 ≤ b.1))
        (hashMatches st.store h d)).filter
        ((fun e => entryDist h e == c) ∘ (fun m => entryOfRow m.2)) =
      (sortLe (fun a b : ℕ × StoredRow => decide (a.1 ≤ b.1))
        (hashMatches st.store h d)).filter (fun m => m.1 == c) := by
    apply List.filter_congr
    intro m hm
    have hd := hashMatches_fst ((sortLe_perm _ _).mem_iff.mp hm)
    simp [Function.comp, hd]
  rw [hcongr]
  rw [sortLe_filter_stable (fun x y hx hxy => ?_) (hashMatches st.store h d)]
  simp at hx hxy ⊢
  omega

/-- Claim C7 holds: for every query fingerprint and distance bound,
`find_by_hash` returns exactly the stored cards whose fingerprint lies within
the bound, ordered ascending by Hamming distance, with ties kept in row
(insertion) order; and with bound 0 it returns exactly the cards whose stored
fingerprint equals the query (given that all stored fingerprints have the
query's length, as imagehash requires). -/
theorem C7_find_by_hash_spec (st : DBState) (h : List Bool) (d : ℕ)
    (hlen : ∀ r ∈ st.store, (r.perceptual_hash.getD h).length = h.length) :
    (∀ e, e ∈ find_by_hash st h d ↔
      ∃ r, r ∈ st.store ∧ ∃ sh, r.perceptual_hash = some sh ∧
        hamming h sh ≤ d ∧ e = entryOfRow r) ∧
    (find_by_hash st h d).Pairwise (fun a b => entryDist h a ≤ entryDist h b) ∧
    (∀ c, (find_by_hash st h d).filter (fun e => entryDist h e == c) =
      ((hashMatches st.store h d).filter (fun m => m.1 == c)).map
        (fun m => entryOfRow m.2)) ∧
    (∀ e, e ∈ find_by_hash st h 0 ↔
      ∃ r, r ∈ st.store ∧ r.perceptual_hash = some h ∧ e = entryOfRow r) := by
  refine ⟨fun e => mem_find_by_hash, find_by_hash_sorted st h d,
    fun c => find_by_hash_stable st h d c, ?_⟩
  intro e
  rw [mem_find_by_hash]
  constructor
  · rintro ⟨r, hr, sh, hsh, hd0, rfl⟩
    have hlr := hlen r hr
    rw [hsh] at hlr
    simp only [Option.getD_some] at hlr
    have heq : h = sh := (hamming_eq_zero_iff hlr.symm).mp (Nat.le_zero.mp hd0)
    exact ⟨r, hr, by rw [hsh, ← heq], rfl⟩
  · rintro ⟨r, hr, hsh, rfl⟩
    exact ⟨r, hr, h, hsh, by simp [hamming_self], rfl⟩

/-- Witness for claim C7 at a concrete four-row store (two rows at distance 0
from the query, one at distance 2, one with no fingerprint). -/
theorem C7_find_by_hash_spec_witness :
    (∀ r ∈ stHashes.store, (r.perceptual_hash.getD hashA).length = hashA.length) ∧
    ((∀ e, e ∈ find_by_hash stHashes hashA 2 ↔
      ∃ r, r ∈ stHashes.store ∧ ∃ sh, r.perceptual_hash = some sh ∧
        hamming hashA sh ≤ 2 ∧ e = entryOfRow r) ∧
    (find_by_hash stHashes hashA 2).Pairwise
      (fun a b => entryDist hashA a ≤ entryDist hashA b) ∧
    (∀ c, (find_by_hash stHashes hashA 2).filter (fun e => entryDist hashA e == c) =
      ((hashMatches stHashes.store hashA 2).filter (fun m => m.1 == c)).map
        (fun m => entryOfRow m.2)) ∧
    (∀ e, e ∈ find_by_hash stHashes hashA 0 ↔
      ∃ r, r ∈ stHashes.store ∧ r.perceptual_hash = some hashA ∧ e = entryOfRow r)) :=
  ⟨by decide, C7_find_by_hash_spec stHashes hashA 2 (by decide)⟩

/-! ## Claim C3 -/

theorem search_sorted (vecs : List (List ℚ)) (q : List ℚ) (k : ℕ) :
    (search vecs q k).Pairwise (fun a b : ℕ × ℚ => b.2 ≤ a.2) := by
  unfold search
  refine List.Pairwise.sublist (List.take_sublist _ _) ?_
  have hs := @sortLe_sorted (ℕ × ℚ)
    (fun a b => decide (b.2 ≤ a.2))
    (fun a b => by
      rcases le_total b.2 a.2 with hab | hab
      · left; simpa using hab
      · right; simpa using hab)
    (fun a b c hab hbc => by
      simp at hab hbc ⊢
      exact le_trans hbc hab)
    ((vecs.enum).map fun p => (p.1, dot q p.2))
  exact hs.imp (fun hab => by simpa using hab)

theorem find_similar_sorted (st : DBState) (q : List ℚ) (k : ℕ) (t : ℚ) :
    (find_similar st q k t).Pairwise (fun a b => b.2 ≤ a.2) := by
  unfold find_similar
  split
  · simp
  · refine pairwise_filterMap_of (search_sorted st.vecs (normalizeL2 q) k) ?_
    intro a b a' b' hab hfa hfb
    obtain ⟨c1, s1⟩ := a'
    obtain ⟨c2, s2⟩ := b'
    have h1 := (resolveHit_some hfa).1
    have h2 := (resolveHit_some hfb).1
    simp only
    rw [h1, h2]
    exact hab

theorem mergeFold_decomp : ∀ (hm : List CardEntry) (acc : List Candidate),
    ∃ extras,
      hm.foldl (fun acc card =>
        if acc.any (fun c => c.card_id == card.card_id) then acc
        else acc ++ [candOf card hashScore]) acc = acc ++ extras ∧
      (∀ c ∈ extras, c.similarity = hashScore) ∧
      extras.length ≤ hm.length := by
  intro hm
  induction hm with
  | nil =>
    intro acc
    exact ⟨[], by simp, fun c hc => absurd hc (by simp), by simp⟩
  | cons card rest ih =>
    intro acc
    simp only [List.foldl_cons]
    by_cases hdup : acc.any (fun c => c.card_id == card.card_id)
    · rw [if_pos hdup]
      obtain ⟨ex, he, hs, hl⟩ := ih acc
      exact ⟨ex, he, hs, Nat.le_succ_of_le hl⟩
    · rw [if_neg hdup]
      obtain ⟨ex, he, hs, hl⟩ := ih (acc ++ [candOf card hashScore])
      refine ⟨candOf card hashScore :: ex, ?_, ?_, ?_⟩
      · rw [he, List.append_assoc]
        rfl
      · intro c hc
        rcases List.mem_cons.mp hc with rfl | hc
        · rfl
        · exact hs c hc
      · simpa using Nat.succ_le_succ hl

/-- Claim C3 fails on the code: the merged `similar_cards` list is not
re-sorted — hash matches (fixed score 0.9) are appended after the embedding
matches, so an embedding match with score 0.6 precedes a hash match with
score 0.9 — and nothing is truncated to a caller-specified maximum (the
limits 3 and 3 are hardcoded).  Concretely, in `stMergeOrder` the merged list
is `[("B", 0.6), ("A", 0.9)]`, which is not ordered by score descending. -/
theorem C3_counterexample :
    (recognizeSimilarCards stMergeOrder (some [3/5, 4/5]) (some hashA)).map
      (fun c => (c.card_id, c.similarity)) = [("B", 3/5), ("A", 9/10)] ∧
    scoresDesc (recognizeSimilarCards stMergeOrder (some [3/5, 4/5]) (some hashA)) =
      false := by
  have hn : normalizeL2 [(3 : ℚ)/5, 4/5] = [3/5, 4/5] :=
    normalizeL2_of_normSq_one (by norm_num [normSq, dot])
  have hrec : recognizeSimilarCards stMergeOrder (some [3/5, 4/5]) (some hashA) =
      [candOf (entryOfRow rowB2d) (3/5), candOf (entryOfRow rowA2d) (9/10)] := by
    simp only [recognizeSimilarCards, find_similar, stMergeOrder, hn]
    norm_num [search, List.enum, List.enumFrom, sortLe, insertLe, dot,
      resolveHit, assocGet, List.find?, get_card, entryOfRow, rowA2d, rowB2d,
      List.filterMap_cons, find_by_hash, hashMatches, hamming, hashA,
      mergeMatches, candOf, hashScore]
    rfl
  constructor
  · rw [hrec]
    simp [candOf, entryOfRow, rowA2d, rowB2d]
  · rw [hrec]
    simp [scoresDesc, candOf]
    norm_num

/-- Claim C3 (amended): the merged list is the embedding-match candidates —
themselves ordered by score descending — followed by at most three appended
hash-match candidates carrying the fixed score 0.9; the list is not re-sorted
globally and its length is bounded by the hardcoded 3 + 3, there being no
caller-specified maximum. -/
theorem C3_merge_order_amended (st : DBState) (f : List ℚ) (h : List Bool) :
    ∃ extras,
      recognizeSimilarCards st (some f) (some h) =
        (find_similar st f 3 (3/5)).map (fun p => candOf p.1 p.2) ++ extras ∧
      (∀ c ∈ extras, c.similarity = hashScore) ∧
      extras.length ≤ 3 ∧
      ((find_similar st f 3 (3/5)).map (fun p => candOf p.1 p.2)).Pairwise
        (fun a b => b.similarity ≤ a.similarity) ∧
      (recognizeSimilarCards st (some f) (some h)).length ≤ 6 := by
  obtain ⟨ex, he, hs, hl⟩ := mergeFold_decomp ((find_by_hash st h 8).take 3)
    ((find_similar st f 3 (3/5)).map fun p => candOf p.1 p.2)
  have hrec : recognizeSimilarCards st (some f) (some h) =
      (find_similar st f 3 (3/5)).map (fun p => candOf p.1 p.2) ++ ex := by
    simp only [recognizeSimilarCards, mergeMatches]
    exact he
  have hlex : ex.length ≤ 3 :=
    le_trans hl (List.length_take_le _ _)
  refine ⟨ex, hrec, hs, hlex, ?_, ?_⟩
  · rw [List.pairwise_map]
    exact (find_similar_sorted st f 3 (3/5)).imp (fun hab => by simpa [candOf] using hab)
  · rw [hrec, List.length_append, List.length_map]
    have hb := find_similar_length_le st f 3 (3/5)
    omega

/-! ## Lemmas: symbolic evaluation of the 2048-dimensional states -/

theorem dot_map_range (f g : ℕ → ℚ) : ∀ n,
    dot ((List.range n).map f) ((List.range n).map g) =
      ∑ j ∈ Finset.range n, f j * g j := by
  intro n
  induction n generalizing f g with
  | zero => simp [dot]
  | succ n ih =>
    rw [List.range_succ_eq_map]
    simp only [List.map_cons, List.map_map]
    show f 0 * g 0 + dot _ _ = _
    rw [ih (f ∘ Nat.succ) (g ∘ Nat.succ), Finset.sum_range_succ']
    simp [Function.comp]
    exact add_comm _ _

theorem dot_unit_eval (f : ℕ → ℚ) (n i : ℕ) (hi : i < n) :
    dot ((List.range n).map f) (unitVec n i) = f i := by
  unfold unitVec
  rw [dot_map_range]
  have hsummand : ∀ j, f j * (if j = i then (1 : ℚ) else 0) =
      if j = i then f j else 0 := by
    intro j
    split <;> simp
  rw [Finset.sum_congr rfl fun j _ => hsummand j, Finset.sum_ite_eq']
  simp [Finset.mem_range, hi]

theorem normSq_unitVec (n i : ℕ) (hi : i < n) : normSq (unitVec n i) = 1 := by
  have h : dot (unitVec n i) (unitVec n i) =
      (fun j => if j = i then (1 : ℚ) else 0) i :=
    dot_unit_eval (fun j => if j = i then (1 : ℚ) else 0) n i hi
  unfold normSq
  rw [h]
  simp

theorem dot_qMixed_unit (i : ℕ) (hi : i < featureDim) :
    dot qMixed (unitVec featureDim i) =
      if i = 0 then 3/5 else if i = 1 then 4/5 else 0 := by
  unfold qMixed
  exact dot_unit_eval _ featureDim i hi

theorem normSq_qMixed : normSq qMixed = 1 := by
  unfold normSq qMixed
  rw [dot_map_range]
  have hsummand : ∀ j : ℕ,
      (if j = 0 then (3 : ℚ)/5 else if j = 1 then 4/5 else 0) *
        (if j = 0 then (3 : ℚ)/5 else if j = 1 then 4/5 else 0) =
      (if j = 0 then (9 : ℚ)/25 else 0) + (if j = 1 then (16 : ℚ)/25 else 0) := by
    intro j
    by_cases h0 : j = 0
    · subst h0; norm_num
    · by_cases h1 : j = 1
      · subst h1; norm_num
      · simp [h0, h1]
  rw [Finset.sum_congr rfl fun j _ => hsummand j, Finset.sum_add_distrib,
    Finset.sum_ite_eq', Finset.sum_ite_eq']
  norm_num [featureDim, Finset.mem_range]

theorem add_entryA1 :
    add_card initState entryA1 .ok =
      ({ store := [rowOfEntry entryA1], vecs := [unitVec featureDim 0],
         id_to_idx := [("A", 0)], idx_to_id := [(0, "A")] }, true) := by
  have hn0 : normalizeL2 (unitVec featureDim 0) = unitVec featureDim 0 :=
    normalizeL2_of_normSq_one (normSq_unitVec _ _ (by norm_num [featureDim]))
  simp only [add_card, entryA1, initState, putRow, assocUpd, length_unitVec, hn0]
  simp [rowOfEntry, entryA1]

theorem stDoubleAdd_eq :
    stDoubleAdd =
      { store := [rowOfEntry entryA2],
        vecs := [unitVec featureDim 0, unitVec featureDim 1],
        id_to_idx := [("A", 1)], idx_to_id := [(0, "A"), (1, "A")] } := by
  have hn1 : normalizeL2 (unitVec featureDim 1) = unitVec featureDim 1 :=
    normalizeL2_of_normSq_one (normSq_unitVec _ _ (by norm_num [featureDim]))
  have h1 : (add_card initState entryA1 .ok).1 =
      { store := [rowOfEntry entryA1], vecs := [unitVec featureDim 0],
        id_to_idx := [("A", 0)], idx_to_id := [(0, "A")] } := by
    rw [add_entryA1]
  unfold stDoubleAdd run
  simp only [List.foldl_cons, List.foldl_nil]
  rw [h1]
  simp only [add_card, entryA2, putRow, assocUpd, length_unitVec, hn1]
  simp [rowOfEntry, entryA1, entryA2]

/-! ## Claim C2 -/

theorem hash_stDoubleAdd : find_by_hash stDoubleAdd hashA 8 = [stripVec entryA2] := by
  rw [stDoubleAdd_eq]
  have hz : hamming hashA hashA = 0 := hamming_self hashA
  simp only [find_by_hash, hashMatches]
  norm_num [rowOfEntry, entryA2, hz, sortLe, insertLe]
  rfl

set_option maxRecDepth 4000 in
theorem find_similar_stDoubleAdd :
    find_similar stDoubleAdd qMixed 3 (3/5) =
      [(stripVec entryA2, 4/5), (stripVec entryA2, 3/5)] := by
  have hq : normalizeL2 qMixed = qMixed := normalizeL2_of_normSq_one normSq_qMixed
  have hd0 : dot qMixed (unitVec featureDim 0) = 3/5 := by
    rw [dot_qMixed_unit 0 (by norm_num [featureDim])]
    norm_num
  have hd1 : dot qMixed (unitVec featureDim 1) = 4/5 := by
    rw [dot_qMixed_unit 1 (by norm_num [featureDim])]
    norm_num
  rw [stDoubleAdd_eq]
  simp only [find_similar, hq]
  norm_num [search, List.enum, List.enumFrom, sortLe, insertLe, hd0, hd1,
    resolveHit, assocGet, List.find?, get_card, List.filterMap_cons,
    rowOfEntry, entryA2, entryOfRow]
  rfl

theorem recognize_stDoubleAdd :
    recognizeSimilarCards stDoubleAdd (some qMixed) (some hashA) =
      [candOf (stripVec entryA2) (4/5), candOf (stripVec entryA2) (3/5)] := by
  simp only [recognizeSimilarCards, find_similar_stDoubleAdd, hash_stDoubleAdd]
  simp [mergeMatches, candOf, stripVec, entryA2]

/-- Claim C2 fails on the code: re-adding a card with a new embedding leaves
two index slots mapped to the same `card_id`, so in `stDoubleAdd` the card
"A" — which matches the query both by embedding (twice, scores 0.8 and 0.6)
and by hash — appears twice in the merged candidate list, not exactly once.
(The hash match is indeed deduplicated and the embedding scores are kept, but
the card still appears more than once.) -/
theorem C2_counterexample :
    (recognizeSimilarCards stDoubleAdd (some qMixed) (some hashA)).map
      (fun c => (c.card_id, c.similarity)) = [("A", 4/5), ("A", 3/5)] ∧
    (find_by_hash stDoubleAdd hashA 8).map (fun e => e.card_id) = ["A"] ∧
    ((recognizeSimilarCards stDoubleAdd (some qMixed) (some hashA)).map
      (fun c => c.card_id)).count "A" = 2 := by
  refine ⟨?_, ?_, ?_⟩
  · rw [recognize_stDoubleAdd]
    simp [candOf, stripVec, entryA2]
  · rw [hash_stDoubleAdd]
    simp [stripVec, entryA2]
  · rw [recognize_stDoubleAdd]
    simp [candOf, stripVec, entryA2, List.count_cons]

theorem mergeFold_filter_frozen (cid : String) : ∀ (hm : List CardEntry)
    (acc : List Candidate), acc.any (fun c => c.card_id == cid) = true →
    (hm.foldl (fun acc card =>
        if acc.any (fun c => c.card_id == card.card_id) then acc
        else acc ++ [candOf card hashScore]) acc).filter
      (fun c => c.card_id == cid) =
      acc.filter (fun c => c.card_id == cid) := by
  intro hm
  induction hm with
  | nil =>
    intro acc _
    simp
  | cons card rest ih =>
    intro acc hacc
    simp only [List.foldl_cons]
    by_cases hdup : acc.any (fun c => c.card_id == card.card_id) = true
    · rw [if_pos hdup]
      exact ih acc hacc
    · rw [if_neg hdup]
      have hne : ((candOf card hashScore).card_id == cid) = false := by
        obtain ⟨c0, hc0, hc0id⟩ := List.any_eq_true.mp hacc
        rw [beq_eq_false_iff_ne]
        intro hcontra
        apply hdup
        rw [List.any_eq_true]
        refine ⟨c0, hc0, ?_⟩
        have h1 : c0.card_id = cid := by simpa using hc0id
        have h2 : card.card_id = cid := by simpa [candOf] using hcontra
        simp [h1, h2]
      have hacc' : (acc ++ [candOf card hashScore]).any
          (fun c => c.card_id == cid) = true := by
        rw [List.any_append, hacc]
        simp
      rw [ih _ hacc', List.filter_append]
      simp [List.filter_cons, hne]

/-- Claim C2 (amended): a hash match never duplicates a card that is already
in the embedding-match list — for any `card_id` present among the embedding
matches, the merged list's candidates with that id are exactly its embedding
candidates, keeping the embedding scores; the card can nevertheless appear
several times when it occupies several index slots. -/
theorem C2_merge_dedup_amended (emb : List (CardEntry × ℚ)) (hm : List CardEntry)
    (cid : String) (hcid : cid ∈ emb.map (fun p => p.1.card_id)) :
    (mergeMatches emb hm).filter (fun c => c.card_id == cid) =
      (emb.map (fun p => candOf p.1 p.2)).filter (fun c => c.card_id == cid) := by
  have hbase : (emb.map (fun p => candOf p.1 p.2)).any
      (fun c => c.card_id == cid) = true := by
    rw [List.any_eq_true]
    obtain ⟨p, hp, hpe⟩ := List.mem_map.mp hcid
    exact ⟨candOf p.1 p.2, List.mem_map_of_mem _ hp, by simp [candOf, hpe]⟩
  unfold mergeMatches
  exact mergeFold_filter_frozen cid (hm.take 3) _ hbase

/-- Witness for claim C2 (amended) at a concrete one-card embedding list. -/
theorem C2_merge_dedup_amended_witness :
    "A" ∈ ([(entryOfRow rowA2d, (4 : ℚ)/5)].map (fun p => p.1.card_id)) ∧
    (mergeMatches [(entryOfRow rowA2d, (4 : ℚ)/5)] [entryOfRow rowA2d]).filter
        (fun c => c.card_id == "A") =
      ([(entryOfRow rowA2d, (4 : ℚ)/5)].map (fun p => candOf p.1 p.2)).filter
        (fun c => c.card_id == "A") :=
  ⟨by decide, C2_merge_dedup_amended _ _ _ (by decide)⟩

/-! ## Claim C5 -/

theorem mapInv_mono {st : DBState} {u v : String → Prop} (h : mapInv st u)
    (huv : ∀ c, u c → v c) : mapInv st v :=
  ⟨h.1, fun c i hg => huv c (h.2.1 c i hg), h.2.2⟩

theorem mapInv_add_card {st : DBState} {u : String → Prop} (h : mapInv st u)
    (e : CardEntry) (f : Fault) (hnew : ¬ u e.card_id) :
    mapInv (add_card st e f).1 (fun c => u c ∨ c = e.card_id) := by
  obtain ⟨hI1, hI2, hI3⟩ := h
  have hmono : mapInv st (fun c => u c ∨ c = e.card_id) :=
    mapInv_mono ⟨hI1, hI2, hI3⟩ (fun c hc => Or.inl hc)
  cases f with
  | storageFail => exact hmono
  | ok =>
    cases hfv : e.feature_vector with
    | none =>
      have heq : (add_card st e .ok).1 =
          { st with store := putRow st.store (rowOfEntry e) } := by
        simp [add_card, hfv]
      rw [heq]
      exact hmono
    | some v =>
      by_cases hlen : v.length = featureDim
      · have heq : (add_card st e .ok).1 =
            { store := putRow st.store (rowOfEntry e),
              vecs := st.vecs ++ [normalizeL2 v],
              id_to_idx := assocUpd st.id_to_idx e.card_id st.vecs.length,
              idx_to_id := assocUpd st.idx_to_id st.vecs.length e.card_id } := by
          simp [add_card, hfv, hlen]
        rw [heq]
        have hid_none : assocGet st.id_to_idx e.card_id = none := by
          cases hg : assocGet st.id_to_idx e.card_id with
          | none => rfl
          | some i => exact absurd (hI2 e.card_id i hg) hnew
        have hidx_none : assocGet st.idx_to_id st.vecs.length = none := by
          cases hg : assocGet st.idx_to_id st.vecs.length with
          | none => rfl
          | some c => exact absurd (hI1 st.vecs.length c hg) (lt_irrefl _)
        have hgid : ∀ c', assocGet (assocUpd st.id_to_idx e.card_id st.vecs.length) c' =
            (assocGet st.id_to_idx c').or
              (if c' == e.card_id then some st.vecs.length else none) := by
          intro c'
          rw [assocUpd_of_none hid_none, assocGet_append_single]
        have hgidx : ∀ i, assocGet (assocUpd st.idx_to_id st.vecs.length e.card_id) i =
            (assocGet st.idx_to_id i).or
              (if i == st.vecs.length then some e.card_id else none) := by
          intro i
          rw [assocUpd_of_none hidx_none, assocGet_append_single]
        refine ⟨?_, ?_, ?_⟩
        · intro i c hg
          simp only [hgidx i] at hg
          simp only [List.length_append, List.length_cons, List.length_nil]
          cases hox : assocGet st.idx_to_id i with
          | some c0 =>
            have := hI1 i c0 hox
            omega
          | none =>
            rw [hox, Option.none_or] at hg
            by_cases hi : i == st.vecs.length
            · have : i = st.vecs.length := by simpa using hi
              omega
            · rw [if_neg hi] at hg
              exact absurd hg (by simp)
        · intro c i hg
          simp only [hgid c] at hg
          cases hoc : assocGet st.id_to_idx c with
          | some i0 => exact Or.inl (hI2 c i0 hoc)
          | none =>
            rw [hoc, Option.none_or] at hg
            by_cases hc : c == e.card_id
            · exact Or.inr (by simpa using hc)
            · rw [if_neg hc] at hg
              exact absurd hg (by simp)
        · intro c i
          show assocGet (assocUpd st.id_to_idx e.card_id st.vecs.length) c = some i ↔
            assocGet (assocUpd st.idx_to_id st.vecs.length e.card_id) i = some c
          rw [hgid c, hgidx i]
          constructor
          · intro hL
            cases hoc : assocGet st.id_to_idx c with
            | some i0 =>
              rw [hoc] at hL
              simp only [Option.or] at hL
              have hii : i0 = i := by simpa using hL
              subst hii
              have hx := (hI3 c i0).mp hoc
              rw [hx]
              simp [Option.or]
            | none =>
              rw [hoc, Option.none_or] at hL
              by_cases hc : c == e.card_id
              · rw [if_pos hc] at hL
                have hni : st.vecs.length = i := by simpa using hL
                subst hni
                rw [hidx_none, Option.none_or, if_pos (by simp)]
                have : c = e.card_id := by simpa using hc
                rw [this]
              · rw [if_neg hc] at hL
                exact absurd hL (by simp)
          · intro hR
            cases hox : assocGet st.idx_to_id i with
            | some c0 =>
              rw [hox] at hR
              simp only [Option.or] at hR
              have hcc : c0 = c := by simpa using hR
              subst hcc
              have hid := (hI3 c0 i).mpr hox
              rw [hid]
              simp [Option.or]
            | none =>
              rw [hox, Option.none_or] at hR
              by_cases hi : i == st.vecs.length
              · rw [if_pos hi] at hR
                have hcc : e.card_id = c := by simpa using hR
                have hii : i = st.vecs.length := by simpa using hi
                subst hii
                rw [← hcc, hid_none, Option.none_or, if_pos (by simp)]
              · rw [if_neg hi] at hR
                exact absurd hR (by simp)
      · have heq : (add_card st e .ok).1 =
            { st with store := putRow st.store (rowOfEntry e) } := by
          simp [add_card, hfv, hlen]
        rw [heq]
        exact hmono

theorem mapInv_run : ∀ (ops : List (CardEntry × Fault)) (st : DBState)
    (u : String → Prop), mapInv st u →
    (ops.map (fun p => p.1.card_id)).Nodup →
    (∀ p ∈ ops, ¬ u p.1.card_id) →
    mapInv (run st ops) (fun c => u c ∨ c ∈ ops.map (fun p => p.1.card_id)) := by
  intro ops
  induction ops with
  | nil =>
    intro st u h _ _
    simp only [run, List.foldl_nil]
    exact mapInv_mono h (fun c hc => Or.inl hc)
  | cons p rest ih =>
    intro st u h hnd hfresh
    simp only [run, List.foldl_cons]
    have hstep := mapInv_add_card h p.1 p.2 (hfresh p (List.mem_cons_self p rest))
    simp only [List.map_cons, List.nodup_cons] at hnd
    have hfresh' : ∀ q ∈ rest, ¬ (u q.1.card_id ∨ q.1.card_id = p.1.card_id) := by
      intro q hq hor
      rcases hor with hu | heq
      · exact hfresh q (List.mem_cons_of_mem p hq) hu
      · exact hnd.1 (heq ▸ List.mem_map_of_mem _ hq)
    have hrun := ih (add_card st p.1 p.2).1 _ hstep hnd.2 hfresh'
    refine mapInv_mono hrun (fun c hc => ?_)
    simp only [List.map_cons, List.mem_cons]
    tauto

/-- Claim C5 fails on the code: re-adding a card id already bound to a slot
does not fail — `add_card` silently overwrites `_id_to_idx` and appends a new
`_idx_to_id` entry — and afterwards the maps are no longer mutually inverse:
in `stDoubleAdd` the bound pair `(0, "A")` still has `card_id_of(0) = "A"`
while `slot_of("A") = 1 ≠ 0`. -/
theorem C5_counterexample :
    (0, "A") ∈ stDoubleAdd.idx_to_id ∧
    assocGet stDoubleAdd.id_to_idx "A" = some 1 ∧
    assocGet stDoubleAdd.idx_to_id 0 = some "A" ∧
    (add_card (run initState [(entryA1, .ok)]) entryA2 .ok).2 = true ∧
    ¬ mutualInverse stDoubleAdd := by
  have hst := stDoubleAdd_eq
  have h1 : assocGet stDoubleAdd.idx_to_id 0 = some "A" := by
    rw [hst]
    simp [assocGet, List.find?]
  have h3 : assocGet stDoubleAdd.id_to_idx "A" = some 1 := by
    rw [hst]
    simp [assocGet, List.find?]
  refine ⟨by rw [hst]; simp, h3, h1, ?_, ?_⟩
  · have hr : run initState [(entryA1, Fault.ok)] =
        { store := [rowOfEntry entryA1], vecs := [unitVec featureDim 0],
          id_to_idx := [("A", 0)], idx_to_id := [(0, "A")] } := by
      simp only [run, List.foldl_cons, List.foldl_nil]
      rw [add_entryA1]
    rw [hr]
    simp [add_card, entryA2, length_unitVec]
  · intro hmi
    have h2 := (hmi "A" 0).mpr h1
    rw [h2] at h3
    exact absurd h3 (by simp)

/-- Claim C5 (amended): provided every `add_card` call in the run uses a
distinct `card_id` (no re-adds), the two mapping dicts are mutually inverse
after any sequence of inserts — including failed and embedding-less ones. -/
theorem C5_bijection_amended (ops : List (CardEntry × Fault))
    (hnd : (ops.map (fun p => p.1.card_id)).Nodup) :
    mutualInverse (run initState ops) := by
  have hinit : mapInv initState (fun _ => False) := by
    refine ⟨?_, ?_, ?_⟩
    · intro i c hg
      simp [initState, assocGet] at hg
    · intro c i hg
      simp [initState, assocGet] at hg
    · intro c i
      constructor
      · intro hg
        simp [initState, assocGet] at hg
      · intro hg
        simp [initState, assocGet] at hg
  have h := mapInv_run ops initState _ hinit hnd (fun p _ hf => hf)
  exact h.2.2

/-- Witness for claim C5 (amended): two adds with distinct card ids. -/
theorem C5_bijection_amended_witness :
    (([(entryA1, Fault.ok), (entryB, Fault.ok)]).map
      (fun p => p.1.card_id)).Nodup ∧
    mutualInverse (run initState [(entryA1, .ok), (entryB, .ok)]) :=
  ⟨by decide, C5_bijection_amended _ (by decide)⟩

end TradingCardScanner
